import Mathlib

/-!
Verification of the graph-algorithms repository (files `graph.h` and the
graph-algorithms header holding `breadth_first_search` / `depth_first_search`
and the vector-based graph).

The development shallowly embeds the three C++ components the claims are
about:

* `graphSets` — the first class in `graph.h` (lines 18-80): vertices in an
  `unordered_set<int>`, edges in an `unordered_set<pair<int,int>>`, with
  `insertVertex` / `eraseVertex` / `insertEdge` / `eraseEdge`.
* `graph` — the adjacency-list container of `graph.h` (lines 98-342): a
  descriptor counter `m_max_vd`, a vertex container and an edge container.
  Its five modifiers are the source's `@todo` stubs, embedded exactly as
  written (they mutate nothing).  The vector-based `graph_vector` class of
  the algorithms file has byte-for-byte identical stub modifiers, so this
  one embedding covers both.
* `breadth_first_search` / `depth_first_search` — the traversal templates.
  They consume a graph only through its iteration contract (vertex
  iteration order, per-vertex out-edge lists, edge descriptors), captured
  here by `TravGraph`; per the container's documented invariant a vertex's
  adjacency list holds exactly the edges whose source it is, which `adjOf`
  realises.  C++ sets of descriptors become `Finset`s, the associative
  parent map becomes an association list over `Nat × Int` with the map's
  `operator[]` semantics (`pset` / `plookup`).  The DFS recursion is made
  total with a fuel argument; the fuel chosen at the top level provably
  dominates the recursion depth, so the out-of-fuel branch is never taken.
-/

/-! ## The set-based class `graph` of `graph.h` (lines 18-80), here `graphSets` -/

/-- State of the first `graph` class in `graph.h`: an `unordered_set<int>` of
vertices and an `unordered_set<pair<int,int>>` of edges. -/
structure graphSets where
  vertices : Finset Int
  edges : Finset (Int × Int)
deriving DecidableEq

namespace graphSets

/-- `insertVertex(v) { vertices.insert(v); }` -/
def insertVertex (g : graphSets) (v : Int) : graphSets :=
  { g with vertices := insert v g.vertices }

/-- `eraseVertex(v)`: erases `v` from the vertex set and every edge whose
first or second component is `v`. -/
def eraseVertex (g : graphSets) (v : Int) : graphSets :=
  { vertices := g.vertices.erase v,
    edges := g.edges.filter (fun e => ¬(e.1 = v ∨ e.2 = v)) }

/-- `insertEdge(v1, v2)`: inserts both `(v1,v2)` and `(v2,v1)`. -/
def insertEdge (g : graphSets) (v1 v2 : Int) : graphSets :=
  { g with edges := insert (v2, v1) (insert (v1, v2) g.edges) }

/-- `eraseEdge(v1, v2)`: erases both `(v1,v2)` and `(v2,v1)`. -/
def eraseEdge (g : graphSets) (v1 v2 : Int) : graphSets :=
  { g with edges := (g.edges.erase (v1, v2)).erase (v2, v1) }

/-- The states of `graphSets` reachable from a default-constructed object by
the four public modifiers (the class's whole public mutation interface). -/
inductive Reachable : graphSets → Prop
  | empty : Reachable ⟨∅, ∅⟩
  | insV {g : graphSets} (v : Int) : Reachable g → Reachable (insertVertex g v)
  | eraV {g : graphSets} (v : Int) : Reachable g → Reachable (eraseVertex g v)
  | insE {g : graphSets} (v1 v2 : Int) : Reachable g → Reachable (insertEdge g v1 v2)
  | eraE {g : graphSets} (v1 v2 : Int) : Reachable g → Reachable (eraseEdge g v1 v2)

end graphSets

/-- A reachable `graphSets` state used as a concrete witness. -/
def gWit : graphSets := graphSets.insertEdge (graphSets.insertVertex ⟨∅, ∅⟩ 1) 1 2

/-! ## The adjacency-list container `graph` of `graph.h` (lines 98-342) -/

/-- The container's internal `vertex` class: descriptor, property and the
adjacency container of out-edges.  The C++ adjacency container holds `edge*`
pointers; a pointer into `m_edges` is represented by the edge's descriptor. -/
structure vertex (V : Type) where
  m_descriptor : Nat
  m_property : V
  m_out_edges : List (Nat × Nat)
deriving DecidableEq

/-- The container's internal `edge` class. -/
structure edge (E : Type) where
  m_source : Nat
  m_target : Nat
  m_property : E
deriving DecidableEq

/-- State of the adjacency-list `graph` container: the descriptor counter
`m_max_vd` and the vertex and edge containers. -/
structure graph (V E : Type) where
  m_max_vd : Nat
  m_vertices : List (vertex V)
  m_edges : List (edge E)
deriving DecidableEq

namespace graph

variable {V E : Type}

/-- `num_vertices() { return m_vertices.size(); }` -/
def num_vertices (g : graph V E) : Nat := g.m_vertices.length

/-- `num_edges() { return m_edges.size(); }` -/
def num_edges (g : graph V E) : Nat := g.m_edges.length

/-- `find_vertex(vd)`: set lookup with `vertex_eq`, which compares
descriptors; the end iterator is `none`. -/
def find_vertex (g : graph V E) (vd : Nat) : Option (vertex V) :=
  g.m_vertices.find? (fun v => v.m_descriptor == vd)

/-- `find_edge(ed)`: set lookup with `edge_eq`, which compares the
`(source, target)` descriptor pairs. -/
def find_edge (g : graph V E) (ed : Nat × Nat) : Option (edge E) :=
  g.m_edges.find? (fun e => e.m_source == ed.1 && e.m_target == ed.2)

/-- The `@todo` stub `insert_vertex`: `return m_max_vd;` — nothing is
inserted and the counter does not move. -/
def insert_vertex (g : graph V E) (_vp : V) : Nat × graph V E :=
  (g.m_max_vd, g)

/-- The `@todo` stub `insert_edge`: `return std::make_pair(sd, td);` —
nothing is inserted and no error state exists in its type. -/
def insert_edge (g : graph V E) (sd td : Nat) (_ep : E) : (Nat × Nat) × graph V E :=
  ((sd, td), g)

/-- The `@todo` stub `insert_edge_undirected`: empty body. -/
def insert_edge_undirected (g : graph V E) (_sd _td : Nat) (_ep : E) : graph V E := g

/-- The `@todo` stub `erase_vertex`: empty body. -/
def erase_vertex (g : graph V E) (_vd : Nat) : graph V E := g

/-- The `@todo` stub `erase_edge`: empty body. -/
def erase_edge (g : graph V E) (_ed : Nat × Nat) : graph V E := g

/-- `clear()`: resets `m_max_vd` to 0 and empties both containers. -/
def clear (_g : graph V E) : graph V E := ⟨0, [], []⟩

end graph

/-- A freshly constructed container (the constructor sets `m_max_vd = 0`). -/
def gEmpty : graph Unit Unit := ⟨0, [], []⟩

/-- A correctly populated container state: vertices 0 and 1 and the directed
edge (0,1), listed in vertex 0's adjacency list. -/
def gPop : graph Unit Unit := ⟨2, [⟨0, (), [(0, 1)]⟩, ⟨1, (), []⟩], [⟨0, 1, ()⟩]⟩

/-- A container state holding the two live vertices 0 and 1 and no edge. -/
def gTwo : graph Unit Unit := ⟨2, [⟨0, (), []⟩, ⟨1, (), []⟩], []⟩

/-! ## The traversal engine (`breadth_first_search`, `depth_first_search`) -/

/-- A graph as consumed by the traversal templates: the vertex iteration
order (`verts`, each entry a descriptor) and the edge iteration order
(`edges`, each entry a `(source, target)` edge descriptor).  A vertex's
adjacency list is the sublist of `edges` with that source (`adjOf`), per the
container invariant that an adjacency list holds exactly the out-edges. -/
structure TravGraph where
  verts : List Nat
  edges : List (Nat × Nat)
deriving DecidableEq

/-- The out-edge (adjacency) list of `v`: the edges whose source is `v`, in
edge iteration order. -/
def adjOf (g : TravGraph) (v : Nat) : List (Nat × Nat) :=
  g.edges.filter (fun e => e.1 = v)

/-- `p[k] = x` on the associative parent map: overwrite the entry with key
`k` if present, append a new entry otherwise. -/
def pset (p : List (Nat × Int)) (k : Nat) (x : Int) : List (Nat × Int) :=
  match p with
  | [] => [(k, x)]
  | (k', x') :: rest => if k' = k then (k, x) :: rest else (k', x') :: pset rest k x

/-- Read access to the parent map; `none` when `k` has no entry. -/
def plookup (k : Nat) : List (Nat × Int) → Option Int
  | [] => none
  | (k', x) :: rest => if k' = k then some x else plookup k rest

/-- The key list of the parent map. -/
def keysOf (p : List (Nat × Int)) : List Nat := p.map Prod.fst

/-- The initialisation loop shared by both traversals: `p.clear()` followed
by `p[vd] = -1` for every vertex in iteration order. -/
def initP (g : TravGraph) : List (Nat × Int) :=
  g.verts.foldl (fun p v => pset p v (-1)) []

/-- The local state of `breadth_first_search`: the FIFO queue `q`, the
unexplored edge set, the unexplored vertex set and the parent map. -/
structure BfsState where
  q : List Nat
  edges_unexplored : Finset (Nat × Nat)
  vertices_unexplored : Finset Nat
  p : List (Nat × Int)
deriving DecidableEq

/-- The body of the BFS adjacency loop for one out-edge `e` of the dequeued
vertex `vd`: if `e` is still unexplored and its target is unexplored, the
edge is a discovery edge (erase it, set `p[target] = vd`, push the target,
mark the target explored); an unexplored edge to an explored target is a
cross edge and nothing happens; an already-explored edge is skipped. -/
def bfsEdgeStep (vd : Nat) (st : BfsState) (e : Nat × Nat) : BfsState :=
  if e ∈ st.edges_unexplored then
    if e.2 ∈ st.vertices_unexplored then
      { q := st.q ++ [e.2],
        edges_unexplored := st.edges_unexplored.erase e,
        vertices_unexplored := st.vertices_unexplored.erase e.2,
        p := pset st.p e.2 (Int.ofNat vd) }
    else st
  else st

/-- The full adjacency scan of one dequeued vertex. -/
def bfsProcess (vd : Nat) (st : BfsState) (adj : List (Nat × Nat)) : BfsState :=
  adj.foldl (bfsEdgeStep vd) st

/-- The `while (!q.empty())` loop: dequeue a vertex and scan its adjacency
list.  `fuel` bounds the iteration count; each iteration strictly decreases
`|vertices_unexplored| + |q|`, so any fuel of at least that sum is enough
and the fuel-exhausted branch is never taken from `bfsFull`. -/
def bfsLoop (g : TravGraph) : Nat → BfsState → BfsState
  | 0, st => st
  | fuel + 1, st =>
    match st.q with
    | [] => st
    | vd :: rest => bfsLoop g fuel (bfsProcess vd { st with q := rest } (adjOf g vd))

/-- The per-component outer loop of BFS: scan the vertices in iteration
order; each still-unexplored vertex is pushed (and marked explored) and the
queue is drained. -/
def bfsScan (g : TravGraph) (fuel : Nat) : BfsState → List Nat → BfsState
  | st, [] => st
  | st, vd :: vs =>
    if vd ∈ st.vertices_unexplored then
      bfsScan g fuel
        (bfsLoop g fuel
          { st with q := [vd], vertices_unexplored := st.vertices_unexplored.erase vd }) vs
    else bfsScan g fuel st vs

/-- The state after BFS setup: empty queue, all edges and vertices
unexplored, every vertex's parent the sentinel -1. -/
def bfsStart (g : TravGraph) : BfsState :=
  { q := [],
    edges_unexplored := g.edges.toFinset,
    vertices_unexplored := g.verts.toFinset,
    p := initP g }

/-- Fuel that dominates every inner-loop iteration count. -/
def bfsFuel (g : TravGraph) : Nat := g.verts.length + 1

/-- The final BFS state. -/
def bfsFull (g : TravGraph) : BfsState := bfsScan g (bfsFuel g) (bfsStart g) g.verts

/-- `breadth_first_search(g, p)`: the parent map left in `p`. -/
def breadth_first_search (g : TravGraph) : List (Nat × Int) := (bfsFull g).p

/-- The state threaded through `depth_first_search` / `dfs_visit`: the
unexplored edge set, the unexplored vertex set and the parent map. -/
structure DfsState where
  edges_unexplored : Finset (Nat × Nat)
  vertices_unexplored : Finset Nat
  p : List (Nat × Int)
deriving DecidableEq

/-- The edge loop of `dfs_visit` for current vertex `u`, processing the
remaining adjacency list: an unexplored edge is erased; if its target is
still unexplored, `p[target] = u` is set and the target is visited
recursively (the visit first erases the target from the unexplored set and
then runs this loop on the target's adjacency list).  `fuel` decreases on
every call; `dfsFuel` dominates the recursion depth, so the fuel-exhausted
branch is never taken from `depth_first_search`. -/
def dfsGo (g : TravGraph) : Nat → Nat → DfsState → List (Nat × Nat) → DfsState
  | 0, _, st, _ => st
  | _ + 1, _, st, [] => st
  | fuel + 1, u, st, e :: rest =>
    if e ∈ st.edges_unexplored then
      if e.2 ∈ st.vertices_unexplored then
        dfsGo g fuel u
          (dfsGo g fuel e.2
            { edges_unexplored := st.edges_unexplored.erase e,
              vertices_unexplored := st.vertices_unexplored.erase e.2,
              p := pset st.p e.2 (Int.ofNat u) }
            (adjOf g e.2)) rest
      else dfsGo g fuel u { st with edges_unexplored := st.edges_unexplored.erase e } rest
    else dfsGo g fuel u st rest

/-- The per-component outer loop of DFS: each still-unexplored vertex in
iteration order is visited (`dfs_visit` erases it and runs the edge loop on
its adjacency list). -/
def dfsScan (g : TravGraph) (fuel : Nat) : DfsState → List Nat → DfsState
  | st, [] => st
  | st, vd :: vs =>
    if vd ∈ st.vertices_unexplored then
      dfsScan g fuel
        (dfsGo g fuel vd { st with vertices_unexplored := st.vertices_unexplored.erase vd }
          (adjOf g vd)) vs
    else dfsScan g fuel st vs

/-- Weight of an unexplored vertex set: each vertex contributes one visit
call plus its adjacency length.  This dominates the extra recursion depth
DFS can spend below any point. -/
def dfsWeight (g : TravGraph) (vu : Finset Nat) : Nat :=
  vu.sum (fun v => 1 + (adjOf g v).length)

/-- Fuel that dominates the DFS recursion depth from any scan state. -/
def dfsFuel (g : TravGraph) : Nat := g.edges.length + dfsWeight g g.verts.toFinset

/-- The state after DFS setup (identical to the BFS setup). -/
def dfsStart (g : TravGraph) : DfsState :=
  { edges_unexplored := g.edges.toFinset,
    vertices_unexplored := g.verts.toFinset,
    p := initP g }

/-- `depth_first_search(g, p)`: the parent map left in `p`. -/
def depth_first_search (g : TravGraph) : List (Nat × Int) :=
  (dfsScan g (dfsFuel g) (dfsStart g) g.verts).p

/-! ## Reachability and the traversal invariants -/

/-- One directed edge step. -/
def edgeRel (g : TravGraph) (a b : Nat) : Prop := (a, b) ∈ g.edges

/-- Directed reachability along edges. -/
def Reach (g : TravGraph) : Nat → Nat → Prop := Relation.ReflTransGen (edgeRel g)

/-- One edge step in either direction (the underlying undirected graph). -/
def uedgeRel (g : TravGraph) (a b : Nat) : Prop := (a, b) ∈ g.edges ∨ (b, a) ∈ g.edges

/-- Connectivity in the underlying undirected graph; two vertices are in one
connected component exactly when `ReachU` relates them. -/
def ReachU (g : TravGraph) : Nat → Nat → Prop := Relation.ReflTransGen (uedgeRel g)

/-- The well-formedness the container contract guarantees for any graph the
traversals run on: distinct vertex descriptors, and every edge endpoint
live. -/
def TravGraph.WF (g : TravGraph) : Prop :=
  g.verts.Nodup ∧ ∀ e ∈ g.edges, e.1 ∈ g.verts ∧ e.2 ∈ g.verts

/-- The edge list is symmetric: every directed edge has its mirror (the
undirected representation the spec mandates). -/
def TravGraph.Sym (g : TravGraph) : Prop := ∀ e ∈ g.edges, (e.2, e.1) ∈ g.edges

/-- The invariant common to both traversals, over the unexplored vertex set
`vu`, unexplored edge set `eu` and parent map `p`. -/
structure CoreInv (g : TravGraph) (vu : Finset Nat) (eu : Finset (Nat × Nat))
    (p : List (Nat × Int)) : Prop where
  vu_sub : ∀ v ∈ vu, v ∈ g.verts
  keys_eq : keysOf p = g.verts
  vu_sentinel : ∀ v ∈ vu, plookup v p = some (-1)
  explored_root : ∀ v ∈ g.verts, v ∉ vu →
    ∃ r, r ∈ g.verts ∧ r ∉ vu ∧ plookup r p = some (-1) ∧ Reach g r v
  erased_target : ∀ e ∈ g.edges, e ∉ eu → e.2 ∉ vu
  roots_unique : ∀ r₁ r₂, r₁ ∈ g.verts → r₂ ∈ g.verts → r₁ ∉ vu → r₂ ∉ vu →
    plookup r₁ p = some (-1) → plookup r₂ p = some (-1) → Reach g r₁ r₂ → r₁ = r₂

/-- The explored region (complement of `vu`) is closed under out-edges;
holds between components, i.e. whenever no traversal is in flight. -/
def closedE (g : TravGraph) (vu : Finset Nat) : Prop :=
  ∀ u w, u ∈ g.verts → u ∉ vu → (u, w) ∈ g.edges → w ∉ vu

/-- The BFS inner-loop invariant: the common invariant, queue members are
explored live vertices, and every explored vertex not in the queue has all
its out-neighbours explored. -/
def BfsInv (g : TravGraph) (st : BfsState) : Prop :=
  CoreInv g st.vertices_unexplored st.edges_unexplored st.p ∧
    (∀ v ∈ st.q, v ∈ g.verts ∧ v ∉ st.vertices_unexplored) ∧
    (∀ u ∈ g.verts, u ∉ st.vertices_unexplored → u ∉ st.q →
      ∀ w, (u, w) ∈ g.edges → w ∉ st.vertices_unexplored)

/-! ## Concrete graphs for the scenario claims -/

/-- The spec's concrete scenario: vertices {0,1,2,3}, undirected edges
(0,1) and (1,2) stored as directed pairs, vertex 3 isolated; ascending scan
and adjacency order. -/
def gEx4 : TravGraph := ⟨[0, 1, 2, 3], [(0, 1), (1, 0), (1, 2), (2, 1)]⟩

/-- One undirected edge {0,1} as its two directed halves. -/
def gPair : TravGraph := ⟨[0, 1], [(0, 1), (1, 0)]⟩

/-- A directed (non-symmetric) graph: edges 0→1 and 2→3, scanned in the
order 0, 3, 2, 1.  Its underlying undirected graph has the two components
{0,1} and {2,3}. -/
def gSplit : TravGraph := ⟨[0, 3, 2, 1], [(0, 1), (2, 3)]⟩

/-- A mid-run BFS state: vertex 1 dequeued, every vertex explored, the cross
edge (1,0) still unexplored. -/
def stCross : BfsState := ⟨[], {(1, 0)}, ∅, [(0, -1), (1, 0)]⟩

/-! ## Parent-map lemmas -/

theorem plookup_pset_self (p : List (Nat × Int)) (k : Nat) (x : Int) :
    plookup k (pset p k x) = some x := by
  induction p with
  | nil => simp [pset, plookup]
  | cons hd tl ih =>
      obtain ⟨k', x'⟩ := hd
      by_cases h : k' = k <;> simp [pset, plookup, h, ih]

theorem plookup_pset_ne (p : List (Nat × Int)) {k k' : Nat} (x : Int) (h : k' ≠ k) :
    plookup k' (pset p k x) = plookup k' p := by
  have hne : ¬k = k' := fun hh => h hh.symm
  induction p with
  | nil => simp [pset, plookup, hne]
  | cons hd tl ih =>
      obtain ⟨k₀, x₀⟩ := hd
      by_cases hk : k₀ = k
      · subst hk
        simp [pset, plookup, hne]
      · by_cases hk' : k₀ = k' <;> simp [pset, hk, plookup, hk', ih, h]

theorem keysOf_pset_of_mem {p : List (Nat × Int)} {k : Nat} (x : Int)
    (h : k ∈ keysOf p) : keysOf (pset p k x) = keysOf p := by
  induction p with
  | nil => simp [keysOf] at h
  | cons hd tl ih =>
      obtain ⟨k₀, x₀⟩ := hd
      by_cases hk : k₀ = k
      · simp [pset, hk, keysOf]
      · have h' : k ∈ keysOf tl := by
          simp only [keysOf, List.map_cons, List.mem_cons] at h
          exact h.resolve_left (fun hh => hk hh.symm)
        have htl := ih h'
        simp only [keysOf] at htl
        simp [pset, hk, keysOf, htl]

theorem pset_of_notMem {p : List (Nat × Int)} {k : Nat} (x : Int)
    (h : k ∉ keysOf p) : pset p k x = p ++ [(k, x)] := by
  induction p with
  | nil => simp [pset]
  | cons hd tl ih =>
      obtain ⟨k₀, x₀⟩ := hd
      simp only [keysOf, List.map_cons, List.mem_cons, not_or] at h
      have hne : ¬k₀ = k := fun hh => h.1 hh.symm
      have htl : k ∉ keysOf tl := by simpa [keysOf] using h.2
      simp [pset, hne, ih htl]

theorem plookup_isSome_iff (p : List (Nat × Int)) (k : Nat) :
    (plookup k p).isSome = true ↔ k ∈ keysOf p := by
  induction p with
  | nil => simp [plookup, keysOf]
  | cons hd tl ih =>
      obtain ⟨k₀, x₀⟩ := hd
      by_cases hk : k₀ = k
      · subst hk
        simp [plookup, keysOf]
      · have hne : ¬k = k₀ := fun hh => hk hh.symm
        simp only [plookup, if_neg hk, keysOf, List.map_cons, List.mem_cons]
        rw [ih]
        simp [keysOf, hne]

theorem foldl_pset_eq (vs : List Nat) :
    ∀ acc : List (Nat × Int), vs.Nodup → (∀ v ∈ vs, v ∉ keysOf acc) →
      vs.foldl (fun p v => pset p v (-1)) acc = acc ++ vs.map (fun v => (v, -1)) := by
  induction vs with
  | nil => simp
  | cons v vs ih =>
      intro acc hnd hdis
      have hstep : pset acc v (-1) = acc ++ [(v, -1)] :=
        pset_of_notMem _ (hdis v (by simp))
      have hnd' : vs.Nodup := (List.nodup_cons.mp hnd).2
      have hdis' : ∀ w ∈ vs, w ∉ keysOf (acc ++ [(v, -1)]) := by
        intro w hw
        have h1 : w ∉ keysOf acc := hdis w (by simp [hw])
        have h2 : w ≠ v := fun h => (List.nodup_cons.mp hnd).1 (h ▸ hw)
        simp [keysOf, List.map_append] at h1 ⊢
        exact ⟨by simpa [keysOf] using h1, h2⟩
      calc (v :: vs).foldl (fun p w => pset p w (-1)) acc
          = vs.foldl (fun p w => pset p w (-1)) (acc ++ [(v, -1)]) := by
            simp [List.foldl_cons, hstep]
        _ = (acc ++ [(v, -1)]) ++ vs.map (fun w => (w, -1)) := ih _ hnd' hdis'
        _ = acc ++ (v :: vs).map (fun w => (w, -1)) := by simp

theorem initP_eq {g : TravGraph} (hnd : g.verts.Nodup) :
    initP g = g.verts.map (fun v => (v, -1)) := by
  simpa [initP] using foldl_pset_eq g.verts [] hnd (by simp [keysOf])

theorem keysOf_map_sentinel (vs : List Nat) :
    keysOf (vs.map (fun v => (v, -1))) = vs := by
  induction vs with
  | nil => rfl
  | cons v vs ih =>
      simp only [keysOf, List.map_cons] at ih ⊢
      rw [ih]

theorem plookup_map_sentinel (vs : List Nat) (k : Nat) :
    plookup k (vs.map (fun v => (v, -1))) = if k ∈ vs then some (-1) else none := by
  induction vs with
  | nil => simp [plookup]
  | cons v vs ih =>
      by_cases h : v = k
      · simp [plookup, h]
      · have hne : ¬k = v := fun hh => h hh.symm
        simp [plookup, h, ih, hne]

/-! ## Adjacency lemmas -/

theorem mem_adjOf {g : TravGraph} {v : Nat} {e : Nat × Nat} :
    e ∈ adjOf g v ↔ e ∈ g.edges ∧ e.1 = v := by
  simp [adjOf, List.mem_filter]

theorem adjOf_length_le (g : TravGraph) (v : Nat) :
    (adjOf g v).length ≤ g.edges.length :=
  List.length_filter_le _ _

/-! ## Reachability lemmas -/

theorem reach_symm {g : TravGraph} (hsym : TravGraph.Sym g) {a b : Nat}
    (h : Reach g a b) : Reach g b a := by
  have hs : Symmetric (edgeRel g) := fun x y hxy => hsym (x, y) hxy
  exact (Relation.ReflTransGen.symmetric hs) h

theorem reach_closed {g : TravGraph} {vu : Finset Nat}
    (hcl : ∀ e ∈ g.edges, e.1 ∈ g.verts ∧ e.2 ∈ g.verts)
    (hE : ∀ u w, u ∈ g.verts → u ∉ vu → (u, w) ∈ g.edges → w ∉ vu)
    {a b : Nat} (ha_mem : a ∈ g.verts) (ha : a ∉ vu) (h : Reach g a b) :
    b ∉ vu ∧ b ∈ g.verts := by
  induction h with
  | refl => exact ⟨ha, ha_mem⟩
  | tail _hab hbc ih =>
      refine ⟨hE _ _ ih.2 ih.1 hbc, (hcl _ hbc).2⟩

/-! ## Claim theorems for the container classes -/

/-- C1 (code bug): on a fresh container, the `@todo` stub `insert_vertex`
does not increase `num_vertices`, stores nothing retrievable through
`find_vertex`, and two consecutive calls return the same descriptor — the
claimed post-state of `insert_vertex` fails on the code as written. -/
theorem C1_insert_vertex_stub :
    (gEmpty.insert_vertex ()).2.num_vertices = gEmpty.num_vertices ∧
    (gEmpty.insert_vertex ()).2.num_vertices = 0 ∧
    (gEmpty.insert_vertex ()).1 = ((gEmpty.insert_vertex ()).2.insert_vertex ()).1 ∧
    (gEmpty.insert_vertex ()).2.find_vertex ((gEmpty.insert_vertex ()).1) = none :=
  ⟨rfl, rfl, rfl, rfl⟩

/-- C2 (code bug): `insert_edge` on descriptors 0 and 1, neither of which is
live on the fresh container, returns `(0, 1)` normally, changes nothing, and
its type carries no error state at all — the claimed `InvalidVertex` failure
is never surfaced. -/
theorem C2_insert_edge_stub :
    (gEmpty.insert_edge 0 1 ()).1 = (0, 1) ∧
    (gEmpty.insert_edge 0 1 ()).2 = gEmpty ∧
    (gEmpty.insert_edge 0 1 ()).2.num_edges = 0 ∧
    (gEmpty.insert_edge 0 1 ()).2.find_edge (0, 1) = none :=
  ⟨rfl, rfl, rfl, rfl⟩

/-- C3 (code bug): `erase_vertex` is a stub: on a populated container it
leaves the vertex live and the edge (0,1) still referencing it, and on a
missing descriptor it reports no `VertexNotFound` error. -/
theorem C3_erase_vertex_stub :
    gPop.erase_vertex 0 = gPop ∧
    (gPop.erase_vertex 0).find_vertex 0 = some ⟨0, (), [(0, 1)]⟩ ∧
    (gPop.erase_vertex 0).find_edge (0, 1) = some ⟨0, 1, ()⟩ ∧
    gEmpty.erase_vertex 5 = gEmpty :=
  ⟨rfl, rfl, rfl, rfl⟩

/-- C4 (code bug): `insert_edge_undirected` on the two live vertices 0 and 1
inserts neither directed edge (and on invalid ones it reports nothing). -/
theorem C4_insert_edge_undirected_stub :
    gTwo.insert_edge_undirected 0 1 () = gTwo ∧
    (gTwo.insert_edge_undirected 0 1 ()).num_edges = 0 ∧
    (gTwo.insert_edge_undirected 0 1 ()).find_edge (0, 1) = none ∧
    (gTwo.insert_edge_undirected 0 1 ()).find_edge (1, 0) = none :=
  ⟨rfl, rfl, rfl, rfl⟩

/-- C8: `clear()` leaves `num_vertices() == 0` and `num_edges() == 0`, the
next `insert_vertex` after a `clear()` returns descriptor 0, and `clear()`
is idempotent. -/
theorem C8_clear_idempotent {V E : Type} (g : graph V E) (vp : V) :
    g.clear.num_vertices = 0 ∧ g.clear.num_edges = 0 ∧
    (g.clear.insert_vertex vp).1 = 0 ∧ g.clear.clear = g.clear :=
  ⟨rfl, rfl, rfl, rfl⟩

/-- C9: every modifier of the templated container is a no-op: the state
(hence `num_vertices`, `num_edges`, the descriptor counter and every
`find_vertex` / `find_edge` result) is unchanged by each call. -/
theorem C9_modifiers_noop {V E : Type} (g : graph V E) (vp : V) (sd td vd : Nat)
    (ep : E) (ed : Nat × Nat) :
    (g.insert_vertex vp).2 = g ∧ (g.insert_edge sd td ep).2 = g ∧
    g.insert_edge_undirected sd td ep = g ∧ g.erase_vertex vd = g ∧
    g.erase_edge ed = g ∧ (g.insert_vertex vp).2.m_max_vd = g.m_max_vd ∧
    (g.insert_vertex vp).2.num_vertices = g.num_vertices ∧
    (g.insert_vertex vp).2.num_edges = g.num_edges ∧
    (∀ x, (g.insert_vertex vp).2.find_vertex x = g.find_vertex x) ∧
    (∀ y, (g.insert_vertex vp).2.find_edge y = g.find_edge y) :=
  ⟨rfl, rfl, rfl, rfl, rfl, rfl, rfl, rfl, fun _ => rfl, fun _ => rfl⟩

/-- C10: in every state of the set-based class reachable from a
default-constructed object through its four modifiers, the edge set is
symmetric: `(u,v)` is present exactly when `(v,u)` is. -/
theorem C10_edge_symmetry (g : graphSets) (h : graphSets.Reachable g) :
    ∀ u v : Int, (u, v) ∈ g.edges ↔ (v, u) ∈ g.edges := by
  induction h with
  | empty => simp
  | insV v _ ih => simpa [graphSets.insertVertex] using ih
  | eraV v _ ih =>
      intro a b
      simp only [graphSets.eraseVertex, Finset.mem_filter]
      rw [ih a b]
      tauto
  | insE v1 v2 _ ih =>
      intro a b
      simp only [graphSets.insertEdge, Finset.mem_insert, Prod.mk.injEq]
      rw [ih a b]
      tauto
  | eraE v1 v2 _ ih =>
      intro a b
      simp only [graphSets.eraseEdge, Finset.mem_erase]
      rw [ih a b]
      constructor
      · rintro ⟨h1, h2, h3⟩
        refine ⟨fun hh => ?_, fun hh => ?_, h3⟩
        · apply h2
          rw [Prod.mk.injEq] at hh ⊢
          exact ⟨hh.2, hh.1⟩
        · apply h1
          rw [Prod.mk.injEq] at hh ⊢
          exact ⟨hh.2, hh.1⟩
      · rintro ⟨h1, h2, h3⟩
        refine ⟨fun hh => ?_, fun hh => ?_, h3⟩
        · apply h2
          rw [Prod.mk.injEq] at hh ⊢
          exact ⟨hh.2, hh.1⟩
        · apply h1
          rw [Prod.mk.injEq] at hh ⊢
          exact ⟨hh.2, hh.1⟩

/-- Witness for C10 at a concrete reachable state. -/
theorem C10_edge_symmetry_witness :
    graphSets.Reachable gWit ∧
      (((1 : Int), (2 : Int)) ∈ gWit.edges ↔ ((2 : Int), (1 : Int)) ∈ gWit.edges) :=
  ⟨graphSets.Reachable.insE 1 2 (graphSets.Reachable.insV 1 graphSets.Reachable.empty),
   C10_edge_symmetry gWit
     (graphSets.Reachable.insE 1 2 (graphSets.Reachable.insV 1 graphSets.Reachable.empty)) 1 2⟩

/-! ## Claim theorems for the traversal scenarios -/

/-- C6: on the spec's concrete graph (vertices {0,1,2,3}, undirected edges
(0,1) and (1,2), vertex 3 isolated, scan order [0,1,2,3], ascending
adjacency order) BFS yields parent[0] = -1, parent[1] = 0, parent[2] = 1,
parent[3] = -1: the two trees {0,1,2} and {3}. -/
theorem C6_concrete_bfs :
    breadth_first_search gEx4 = [(0, -1), (1, 0), (2, 1), (3, -1)] ∧
    plookup 0 (breadth_first_search gEx4) = some (-1) ∧
    plookup 1 (breadth_first_search gEx4) = some 0 ∧
    plookup 2 (breadth_first_search gEx4) = some 1 ∧
    plookup 3 (breadth_first_search gEx4) = some (-1) := by
  refine ⟨rfl, by decide, by decide, by decide, by decide⟩

/-- C7 counterexample: the examined unexplored cross edge (1,0) is not
marked explored.  In `stCross` vertex 1 has been dequeued and `(1,0)` is
still unexplored; the BFS edge step leaves the state (so the edge stays
unexplored), and the full run on the one-undirected-edge graph `gPair` ends
with every vertex processed and the queue drained yet with `(1,0)` still in
the unexplored edge set — contradicting "every outgoing edge … still marked
unexplored is marked explored when it is examined, regardless of whether its
target is still unexplored". -/
theorem C7_cross_edge_cex :
    (1, 0) ∈ stCross.edges_unexplored ∧ bfsEdgeStep 1 stCross (1, 0) = stCross ∧
    (bfsFull gPair).edges_unexplored = {(1, 0)} ∧
    (bfsFull gPair).vertices_unexplored = ∅ ∧ (bfsFull gPair).q = [] :=
  ⟨by decide, rfl, by decide, by decide, rfl⟩

/-- C7 (amended): for each dequeued vertex `vd` and each outgoing edge `e`
still marked unexplored when examined: if the target is still unexplored the
edge is a discovery edge — it is marked explored, `parent[target] := vd`,
the target is marked explored and enqueued; if the target is already
explored the edge is a cross edge and is discarded with no state change at
all (in particular it is not marked explored and no parent entry moves). -/
theorem C7_edge_step_amended (vd : Nat) (st : BfsState) (e : Nat × Nat)
    (he : e ∈ st.edges_unexplored) :
    (e.2 ∈ st.vertices_unexplored →
      bfsEdgeStep vd st e =
        { q := st.q ++ [e.2],
          edges_unexplored := st.edges_unexplored.erase e,
          vertices_unexplored := st.vertices_unexplored.erase e.2,
          p := pset st.p e.2 (Int.ofNat vd) }) ∧
    (e.2 ∉ st.vertices_unexplored → bfsEdgeStep vd st e = st) := by
  constructor <;> intro h <;> simp [bfsEdgeStep, he, h]

/-- Witness for C7 at the concrete cross-edge state. -/
theorem C7_edge_step_witness : bfsEdgeStep 1 stCross (1, 0) = stCross :=
  (C7_edge_step_amended 1 stCross (1, 0) (by decide)).2 (by decide)

/-! ## Preservation of the common invariant by the three exploration events -/

theorem core_discovery {g : TravGraph} {vu : Finset Nat} {eu : Finset (Nat × Nat)}
    {p : List (Nat × Int)} (hInv : CoreInv g vu eu p) {u : Nat} (hu_mem : u ∈ g.verts)
    (hu : u ∉ vu) {e : Nat × Nat} (he : e ∈ g.edges) (hsrc : e.1 = u) (ht : e.2 ∈ vu) :
    CoreInv g (vu.erase e.2) (eu.erase e) (pset p e.2 (Int.ofNat u)) := by
  obtain ⟨hsub, hkeys, hsent, hroot, htar, huniq⟩ := hInv
  have ht_mem : e.2 ∈ g.verts := hsub _ ht
  have hexp_ne : ∀ r, r ∉ vu → r ≠ e.2 := fun r hr hh => hr (hh ▸ ht)
  have hlook_ne : ∀ r, r ≠ e.2 → plookup r (pset p e.2 (Int.ofNat u)) = plookup r p :=
    fun r hr => plookup_pset_ne p _ hr
  have hofNat : (Int.ofNat u) ≠ (-1 : Int) := by
    intro h
    have hnn : (0 : Int) ≤ Int.ofNat u := Int.ofNat_nonneg u
    omega
  have hedge : edgeRel g u e.2 := by
    show (u, e.2) ∈ g.edges
    rw [← hsrc, Prod.mk.eta]
    exact he
  refine ⟨?_, ?_, ?_, ?_, ?_, ?_⟩
  · intro v hv
    exact hsub v (Finset.mem_of_mem_erase hv)
  · rw [keysOf_pset_of_mem _ (by rw [hkeys]; exact ht_mem), hkeys]
  · intro v hv
    have hvne : v ≠ e.2 := (Finset.mem_erase.mp hv).1
    rw [hlook_ne v hvne]
    exact hsent v (Finset.mem_of_mem_erase hv)
  · intro v hv_mem hv
    by_cases hve : v = e.2
    · subst hve
      obtain ⟨r, hr1, hr2, hr3, hr4⟩ := hroot u hu_mem hu
      refine ⟨r, hr1, fun hc => hr2 (Finset.mem_of_mem_erase hc), ?_, hr4.tail hedge⟩
      rw [hlook_ne r (hexp_ne r hr2)]
      exact hr3
    · have hv' : v ∉ vu := fun hc => hv (Finset.mem_erase.mpr ⟨hve, hc⟩)
      obtain ⟨r, hr1, hr2, hr3, hr4⟩ := hroot v hv_mem hv'
      refine ⟨r, hr1, fun hc => hr2 (Finset.mem_of_mem_erase hc), ?_, hr4⟩
      rw [hlook_ne r (hexp_ne r hr2)]
      exact hr3
  · intro e' he' hne
    by_cases hee : e' = e
    · subst hee
      exact Finset.not_mem_erase _ _
    · have h' : e' ∉ eu := fun hc => hne (Finset.mem_erase.mpr ⟨hee, hc⟩)
      exact fun hc => htar e' he' h' (Finset.mem_of_mem_erase hc)
  · intro r₁ r₂ h1m h2m h1e h2e h1s h2s hre
    have hnot_t : ∀ r, plookup r (pset p e.2 (Int.ofNat u)) = some (-1) → r ≠ e.2 := by
      intro r hs hh
      subst hh
      rw [plookup_pset_self] at hs
      exact hofNat (Option.some.inj hs)
    have h1ne := hnot_t r₁ h1s
    have h2ne := hnot_t r₂ h2s
    have h1e' : r₁ ∉ vu := fun hc => h1e (Finset.mem_erase.mpr ⟨h1ne, hc⟩)
    have h2e' : r₂ ∉ vu := fun hc => h2e (Finset.mem_erase.mpr ⟨h2ne, hc⟩)
    rw [hlook_ne r₁ h1ne] at h1s
    rw [hlook_ne r₂ h2ne] at h2s
    exact huniq r₁ r₂ h1m h2m h1e' h2e' h1s h2s hre

theorem core_cross {g : TravGraph} {vu : Finset Nat} {eu : Finset (Nat × Nat)}
    {p : List (Nat × Int)} (hInv : CoreInv g vu eu p) {e : Nat × Nat}
    (he : e ∈ g.edges) (ht : e.2 ∉ vu) : CoreInv g vu (eu.erase e) p := by
  obtain ⟨hsub, hkeys, hsent, hroot, htar, huniq⟩ := hInv
  refine ⟨hsub, hkeys, hsent, hroot, ?_, huniq⟩
  intro e' he' hne
  by_cases hee : e' = e
  · subst hee
    exact ht
  · exact htar e' he' (fun hc => hne (Finset.mem_erase.mpr ⟨hee, hc⟩))

theorem core_root_push {g : TravGraph}
    (hcl : ∀ e ∈ g.edges, e.1 ∈ g.verts ∧ e.2 ∈ g.verts) (hsym : TravGraph.Sym g)
    {vu : Finset Nat} {eu : Finset (Nat × Nat)} {p : List (Nat × Int)}
    (hInv : CoreInv g vu eu p) (hE : closedE g vu) {v : Nat}
    (hv_mem : v ∈ g.verts) (hv : v ∈ vu) : CoreInv g (vu.erase v) eu p := by
  obtain ⟨hsub, hkeys, hsent, hroot, htar, huniq⟩ := hInv
  refine ⟨?_, hkeys, ?_, ?_, ?_, ?_⟩
  · intro x hx
    exact hsub x (Finset.mem_of_mem_erase hx)
  · intro x hx
    exact hsent x (Finset.mem_of_mem_erase hx)
  · intro x hx_mem hx
    by_cases hxv : x = v
    · subst hxv
      exact ⟨x, hx_mem, Finset.not_mem_erase _ _, hsent x hv, Relation.ReflTransGen.refl⟩
    · have hx' : x ∉ vu := fun hc => hx (Finset.mem_erase.mpr ⟨hxv, hc⟩)
      obtain ⟨r, hr1, hr2, hr3, hr4⟩ := hroot x hx_mem hx'
      exact ⟨r, hr1, fun hc => hr2 (Finset.mem_of_mem_erase hc), hr3, hr4⟩
  · intro e he hne
    exact fun hc => htar e he hne (Finset.mem_of_mem_erase hc)
  · intro r₁ r₂ h1m h2m h1e h2e h1s h2s hre
    by_cases h1v : r₁ = v <;> by_cases h2v : r₂ = v
    · rw [h1v, h2v]
    · subst h1v
      exfalso
      have h2e' : r₂ ∉ vu := fun hc => h2e (Finset.mem_erase.mpr ⟨h2v, hc⟩)
      exact (reach_closed hcl hE h2m h2e' (reach_symm hsym hre)).1 hv
    · subst h2v
      exfalso
      have h1e' : r₁ ∉ vu := fun hc => h1e (Finset.mem_erase.mpr ⟨h1v, hc⟩)
      exact (reach_closed hcl hE h1m h1e' hre).1 hv
    · have h1e' : r₁ ∉ vu := fun hc => h1e (Finset.mem_erase.mpr ⟨h1v, hc⟩)
      have h2e' : r₂ ∉ vu := fun hc => h2e (Finset.mem_erase.mpr ⟨h2v, hc⟩)
      exact huniq r₁ r₂ h1m h2m h1e' h2e' h1s h2s hre

/-! ## The BFS invariant stack -/

theorem bfsEdgeStep_spec {g : TravGraph} (vd : Nat) (st : BfsState) (e : Nat × Nat)
    (hInv : CoreInv g st.vertices_unexplored st.edges_unexplored st.p)
    (hvd_mem : vd ∈ g.verts) (hvd : vd ∉ st.vertices_unexplored)
    (he : e ∈ g.edges) (hsrc : e.1 = vd) :
    CoreInv g (bfsEdgeStep vd st e).vertices_unexplored
        (bfsEdgeStep vd st e).edges_unexplored (bfsEdgeStep vd st e).p ∧
    (bfsEdgeStep vd st e).vertices_unexplored ⊆ st.vertices_unexplored ∧
    (∀ x ∈ st.q, x ∈ (bfsEdgeStep vd st e).q) ∧
    (∀ x ∈ (bfsEdgeStep vd st e).q,
      x ∈ st.q ∨ (x ∈ g.verts ∧ x ∉ (bfsEdgeStep vd st e).vertices_unexplored)) ∧
    (∀ x ∈ st.vertices_unexplored,
      x ∉ (bfsEdgeStep vd st e).vertices_unexplored → x ∈ (bfsEdgeStep vd st e).q) ∧
    e.2 ∉ (bfsEdgeStep vd st e).vertices_unexplored ∧
    (bfsEdgeStep vd st e).vertices_unexplored.card + (bfsEdgeStep vd st e).q.length
      = st.vertices_unexplored.card + st.q.length := by
  by_cases h1 : e ∈ st.edges_unexplored
  · by_cases h2 : e.2 ∈ st.vertices_unexplored
    · have hstep : bfsEdgeStep vd st e =
        { q := st.q ++ [e.2],
          edges_unexplored := st.edges_unexplored.erase e,
          vertices_unexplored := st.vertices_unexplored.erase e.2,
          p := pset st.p e.2 (Int.ofNat vd) } := by
        simp [bfsEdgeStep, h1, h2]
      rw [hstep]
      refine ⟨core_discovery hInv hvd_mem hvd he hsrc h2, Finset.erase_subset _ _,
        ?_, ?_, ?_, Finset.not_mem_erase _ _, ?_⟩
      · intro x hx
        simp [hx]
      · intro x hx
        rcases List.mem_append.mp hx with hx | hx
        · exact Or.inl hx
        · simp only [List.mem_singleton] at hx
          subst hx
          exact Or.inr ⟨hInv.vu_sub _ h2, Finset.not_mem_erase _ _⟩
      · intro x hx hx'
        have hxe : x = e.2 := by
          by_contra hne
          exact hx' (Finset.mem_erase.mpr ⟨hne, hx⟩)
        simp [hxe]
      · have hpos : 0 < st.vertices_unexplored.card := Finset.card_pos.mpr ⟨e.2, h2⟩
        rw [Finset.card_erase_of_mem h2, List.length_append]
        simp only [List.length_singleton]
        omega
    · have hstep : bfsEdgeStep vd st e = st := by simp [bfsEdgeStep, h1, h2]
      rw [hstep]
      exact ⟨hInv, Finset.Subset.refl _, fun x hx => hx, fun x hx => Or.inl hx,
        fun x hx hx' => absurd hx hx', h2, rfl⟩
  · have hstep : bfsEdgeStep vd st e = st := by simp [bfsEdgeStep, h1]
    rw [hstep]
    exact ⟨hInv, Finset.Subset.refl _, fun x hx => hx, fun x hx => Or.inl hx,
      fun x hx hx' => absurd hx hx', hInv.erased_target e he h1, rfl⟩

theorem bfsProcess_spec {g : TravGraph} (vd : Nat) :
    ∀ (adj : List (Nat × Nat)) (st : BfsState),
      CoreInv g st.vertices_unexplored st.edges_unexplored st.p →
      vd ∈ g.verts → vd ∉ st.vertices_unexplored →
      (∀ e ∈ adj, e ∈ g.edges ∧ e.1 = vd) →
      CoreInv g (bfsProcess vd st adj).vertices_unexplored
          (bfsProcess vd st adj).edges_unexplored (bfsProcess vd st adj).p ∧
      (bfsProcess vd st adj).vertices_unexplored ⊆ st.vertices_unexplored ∧
      (∀ x ∈ st.q, x ∈ (bfsProcess vd st adj).q) ∧
      (∀ x ∈ (bfsProcess vd st adj).q,
        x ∈ st.q ∨ (x ∈ g.verts ∧ x ∉ (bfsProcess vd st adj).vertices_unexplored)) ∧
      (∀ x ∈ st.vertices_unexplored,
        x ∉ (bfsProcess vd st adj).vertices_unexplored → x ∈ (bfsProcess vd st adj).q) ∧
      (∀ e ∈ adj, e.2 ∉ (bfsProcess vd st adj).vertices_unexplored) ∧
      (bfsProcess vd st adj).vertices_unexplored.card + (bfsProcess vd st adj).q.length
        = st.vertices_unexplored.card + st.q.length := by
  intro adj
  induction adj with
  | nil =>
      intro st hInv _ _ _
      exact ⟨hInv, Finset.Subset.refl _, fun x hx => hx, fun x hx => Or.inl hx,
        fun x hx hx' => absurd hx hx', by simp, rfl⟩
  | cons e adj ih =>
      intro st hInv hvd_mem hvd hadj
      have he := hadj e (by simp)
      obtain ⟨hI1, hmono1, hqup1, hqfrom1, hdisc1, htgt1, hcard1⟩ :=
        bfsEdgeStep_spec vd st e hInv hvd_mem hvd he.1 he.2
      have hvd1 : vd ∉ (bfsEdgeStep vd st e).vertices_unexplored := fun hc => hvd (hmono1 hc)
      have hadj' : ∀ e' ∈ adj, e' ∈ g.edges ∧ e'.1 = vd := fun e' he' => hadj e' (by simp [he'])
      obtain ⟨hI2, hmono2, hqup2, hqfrom2, hdisc2, htgt2, hcard2⟩ :=
        ih (bfsEdgeStep vd st e) hI1 hvd_mem hvd1 hadj'
      have hproc : bfsProcess vd st (e :: adj) = bfsProcess vd (bfsEdgeStep vd st e) adj := rfl
      rw [hproc]
      refine ⟨hI2, fun x hx => hmono1 (hmono2 hx), fun x hx => hqup2 _ (hqup1 _ hx),
        ?_, ?_, ?_, by rw [hcard2, hcard1]⟩
      · intro x hx
        rcases hqfrom2 x hx with hx1 | hx1
        · rcases hqfrom1 x hx1 with hx2 | hx2
          · exact Or.inl hx2
          · exact Or.inr ⟨hx2.1, fun hc => hx2.2 (hmono2 hc)⟩
        · exact Or.inr hx1
      · intro x hx hx'
        by_cases hmid : x ∈ (bfsEdgeStep vd st e).vertices_unexplored
        · exact hdisc2 x hmid hx'
        · exact hqup2 x (hdisc1 x hx hmid)
      · intro e' he'
        rcases List.mem_cons.mp he' with he' | he'
        · subst he'
          exact fun hc => htgt1 (hmono2 hc)
        · exact htgt2 e' he'

theorem bfsLoop_nilq (g : TravGraph) (fuel : Nat) (eu : Finset (Nat × Nat))
    (vu : Finset Nat) (p : List (Nat × Int)) :
    bfsLoop g (fuel + 1) ⟨[], eu, vu, p⟩ = ⟨[], eu, vu, p⟩ := rfl

theorem bfsLoop_consq (g : TravGraph) (fuel vd : Nat) (rest : List Nat)
    (eu : Finset (Nat × Nat)) (vu : Finset Nat) (p : List (Nat × Int)) :
    bfsLoop g (fuel + 1) ⟨vd :: rest, eu, vu, p⟩ =
      bfsLoop g fuel (bfsProcess vd ⟨rest, eu, vu, p⟩ (adjOf g vd)) := rfl

theorem bfsScan_cons (g : TravGraph) (fuel : Nat) (st : BfsState) (vd : Nat) (vs : List Nat) :
    bfsScan g fuel st (vd :: vs) =
      if vd ∈ st.vertices_unexplored then
        bfsScan g fuel (bfsLoop g fuel
          { st with q := [vd], vertices_unexplored := st.vertices_unexplored.erase vd }) vs
      else bfsScan g fuel st vs := rfl

theorem bfsLoop_spec {g : TravGraph} :
    ∀ (fuel : Nat) (st : BfsState), BfsInv g st →
      st.vertices_unexplored.card + st.q.length ≤ fuel →
      BfsInv g (bfsLoop g fuel st) ∧ (bfsLoop g fuel st).q = [] ∧
      (bfsLoop g fuel st).vertices_unexplored ⊆ st.vertices_unexplored := by
  intro fuel
  induction fuel with
  | zero =>
      intro st hInv hfuel
      have hq : st.q = [] := List.length_eq_zero.mp (by omega)
      exact ⟨hInv, hq, Finset.Subset.refl _⟩
  | succ fuel ih =>
      intro st hInv hfuel
      obtain ⟨q0, eu, vu, p⟩ := st
      cases q0 with
      | nil =>
          rw [bfsLoop_nilq]
          exact ⟨hInv, rfl, Finset.Subset.refl _⟩
      | cons vd rest =>
          obtain ⟨hcore, hqex, hdone⟩ := hInv
          have hvdq := hqex vd (by simp)
          have hadj : ∀ e ∈ adjOf g vd, e ∈ g.edges ∧ e.1 = vd := fun _ he => mem_adjOf.mp he
          obtain ⟨hI2, hmono2, hqup2, hqfrom2, hdisc2, htgt2, hcard2⟩ :=
            bfsProcess_spec vd (adjOf g vd) ⟨rest, eu, vu, p⟩ hcore hvdq.1 hvdq.2 hadj
          set st2 := bfsProcess vd ⟨rest, eu, vu, p⟩ (adjOf g vd) with hst2
          have hInv2 : BfsInv g st2 := by
            refine ⟨hI2, ?_, ?_⟩
            · intro x hx
              rcases hqfrom2 x hx with hx1 | hx1
              · have hx2 := hqex x (by simp; exact Or.inr hx1)
                exact ⟨hx2.1, fun hc => hx2.2 (hmono2 hc)⟩
              · exact hx1
            · intro y hym hy hyq w hw
              by_cases hyv : y = vd
              · subst hyv
                exact htgt2 (y, w) (mem_adjOf.mpr ⟨hw, rfl⟩)
              · by_cases hold : y ∈ vu
                · exact absurd (hdisc2 y hold hy) hyq
                · intro hc
                  have hyq0 : y ∉ vd :: rest := by
                    intro hmem
                    rcases List.mem_cons.mp hmem with h | h
                    · exact hyv h
                    · exact hyq (hqup2 y h)
                  exact hdone y hym hold hyq0 w hw (hmono2 hc)
          have hcard2' : st2.vertices_unexplored.card + st2.q.length
              = vu.card + rest.length := hcard2
          have hlen : vu.card + (rest.length + 1) ≤ fuel + 1 := by simpa using hfuel
          obtain ⟨hI3, hq3, hmono3⟩ := ih st2 hInv2 (by omega)
          rw [bfsLoop_consq, ← hst2]
          exact ⟨hI3, hq3, fun x hx => hmono2 (hmono3 hx)⟩

theorem start_core {g : TravGraph} (hnd : g.verts.Nodup) :
    CoreInv g g.verts.toFinset g.edges.toFinset (initP g) := by
  have hp := initP_eq hnd
  refine ⟨?_, ?_, ?_, ?_, ?_, ?_⟩
  · intro v hv
    exact List.mem_toFinset.mp hv
  · rw [hp, keysOf_map_sentinel]
  · intro v hv
    rw [hp, plookup_map_sentinel]
    simp [List.mem_toFinset.mp hv]
  · intro v hv hv'
    exact absurd (List.mem_toFinset.mpr hv) hv'
  · intro e he hne
    exact absurd (List.mem_toFinset.mpr he) hne
  · intro r₁ r₂ h1m _ h1e _ _ _ _
    exact absurd (List.mem_toFinset.mpr h1m) h1e

theorem start_closedE (g : TravGraph) : closedE g g.verts.toFinset := by
  intro y w hym hy _
  exact absurd (List.mem_toFinset.mpr hym) hy

theorem bfsScan_spec {g : TravGraph}
    (hcl : ∀ e ∈ g.edges, e.1 ∈ g.verts ∧ e.2 ∈ g.verts) (hsym : TravGraph.Sym g) :
    ∀ (vs : List Nat) (st : BfsState), (∀ v ∈ vs, v ∈ g.verts) →
      CoreInv g st.vertices_unexplored st.edges_unexplored st.p →
      st.q = [] → closedE g st.vertices_unexplored →
      CoreInv g (bfsScan g (bfsFuel g) st vs).vertices_unexplored
          (bfsScan g (bfsFuel g) st vs).edges_unexplored (bfsScan g (bfsFuel g) st vs).p ∧
      closedE g (bfsScan g (bfsFuel g) st vs).vertices_unexplored ∧
      (bfsScan g (bfsFuel g) st vs).q = [] ∧
      (bfsScan g (bfsFuel g) st vs).vertices_unexplored ⊆ st.vertices_unexplored ∧
      (∀ v ∈ vs, v ∉ (bfsScan g (bfsFuel g) st vs).vertices_unexplored) := by
  intro vs
  induction vs with
  | nil =>
      intro st _ hcore hq hcE
      exact ⟨hcore, hcE, hq, Finset.Subset.refl _, by simp⟩
  | cons vd vs ih =>
      intro st hvs hcore hq hcE
      have hvd_mem : vd ∈ g.verts := hvs vd (by simp)
      rw [bfsScan_cons]
      by_cases hvd : vd ∈ st.vertices_unexplored
      · rw [if_pos hvd]
        have hcoreP : CoreInv g (st.vertices_unexplored.erase vd) st.edges_unexplored st.p :=
          core_root_push hcl hsym hcore hcE hvd_mem hvd
        have hInvP : BfsInv g
            { st with q := [vd], vertices_unexplored := st.vertices_unexplored.erase vd } := by
          refine ⟨hcoreP, ?_, ?_⟩
          · intro x hx
            simp only [List.mem_singleton] at hx
            subst hx
            exact ⟨hvd_mem, Finset.not_mem_erase _ _⟩
          · intro y hym hy hyq w hw
            have hyvd : y ≠ vd := by
              intro h
              exact hyq (by simp [h])
            have hy' : y ∉ st.vertices_unexplored :=
              fun hc => hy (Finset.mem_erase.mpr ⟨hyvd, hc⟩)
            exact fun hc => hcE y w hym hy' hw (Finset.mem_of_mem_erase hc)
        have hcard : (st.vertices_unexplored.erase vd).card + 1 ≤ bfsFuel g := by
          have hsubF : st.vertices_unexplored ⊆ g.verts.toFinset :=
            fun x hx => List.mem_toFinset.mpr (hcore.vu_sub x hx)
          have h1 : st.vertices_unexplored.card ≤ g.verts.length :=
            le_trans (Finset.card_le_card hsubF) g.verts.toFinset_card_le
          have h2 := Finset.card_erase_of_mem hvd
          have h3 : 0 < st.vertices_unexplored.card := Finset.card_pos.mpr ⟨vd, hvd⟩
          show _ ≤ g.verts.length + 1
          omega
        obtain ⟨hInvL, hqL, hmonoL⟩ := bfsLoop_spec (bfsFuel g)
          { st with q := [vd], vertices_unexplored := st.vertices_unexplored.erase vd }
          hInvP hcard
        set stL := bfsLoop g (bfsFuel g)
          { st with q := [vd], vertices_unexplored := st.vertices_unexplored.erase vd } with hstL
        have hcEL : closedE g stL.vertices_unexplored := by
          intro y w hym hy hw
          exact hInvL.2.2 y hym hy (by rw [hqL]; simp) w hw
        obtain ⟨hI, hcE', hq', hmono', hcov'⟩ :=
          ih stL (fun v hv => hvs v (by simp [hv])) hInvL.1 hqL hcEL
        refine ⟨hI, hcE', hq', ?_, ?_⟩
        · intro x hx
          exact Finset.mem_of_mem_erase (hmonoL (hmono' hx))
        · intro v hv
          rcases List.mem_cons.mp hv with hv | hv
          · subst hv
            exact fun hc => Finset.not_mem_erase v st.vertices_unexplored (hmonoL (hmono' hc))
          · exact hcov' v hv
      · rw [if_neg hvd]
        obtain ⟨hI, hcE', hq', hmono', hcov'⟩ :=
          ih st (fun v hv => hvs v (by simp [hv])) hcore hq hcE
        refine ⟨hI, hcE', hq', hmono', ?_⟩
        intro v hv
        rcases List.mem_cons.mp hv with hv | hv
        · subst hv
          exact fun hc => hvd (hmono' hc)
        · exact hcov' v hv

theorem bfs_parent_correct {g : TravGraph} (hnd : g.verts.Nodup)
    (hcl : ∀ e ∈ g.edges, e.1 ∈ g.verts ∧ e.2 ∈ g.verts) (hsym : TravGraph.Sym g) :
    (∀ x, (plookup x (breadth_first_search g)).isSome = true ↔ x ∈ g.verts) ∧
    (∀ v ∈ g.verts, ∃! r,
      (r ∈ g.verts ∧ plookup r (breadth_first_search g) = some (-1)) ∧ Reach g r v) := by
  obtain ⟨hcoreF, hcEF, hqF, hmonoF, hcovF⟩ :=
    bfsScan_spec hcl hsym g.verts (bfsStart g) (fun v hv => hv) (start_core hnd) rfl
      (start_closedE g)
  constructor
  · intro x
    rw [plookup_isSome_iff]
    show x ∈ keysOf (bfsScan g (bfsFuel g) (bfsStart g) g.verts).p ↔ x ∈ g.verts
    rw [hcoreF.keys_eq]
  · intro v hv
    have hvnot := hcovF v hv
    obtain ⟨r, hr1, hr2, hr3, hr4⟩ := hcoreF.explored_root v hv hvnot
    refine ⟨r, ⟨⟨hr1, hr3⟩, hr4⟩, ?_⟩
    rintro y ⟨⟨hy1, hy2⟩, hy3⟩
    exact hcoreF.roots_unique y r hy1 hr1 (hcovF y hy1) hr2 hy2 hr3
      (hy3.trans (reach_symm hsym hr4))

theorem bfs_empty {g : TravGraph} (h : g.verts = []) : breadth_first_search g = [] := by
  simp [breadth_first_search, bfsFull, bfsStart, initP, h, bfsScan]

/-! ## The DFS invariant stack -/

theorem dfsGo_zero (g : TravGraph) (u : Nat) (st : DfsState) (adj : List (Nat × Nat)) :
    dfsGo g 0 u st adj = st := rfl

theorem dfsGo_nil (g : TravGraph) (fuel u : Nat) (st : DfsState) :
    dfsGo g (fuel + 1) u st [] = st := rfl

theorem dfsGo_cons (g : TravGraph) (fuel u : Nat) (eu : Finset (Nat × Nat))
    (vu : Finset Nat) (p : List (Nat × Int)) (e : Nat × Nat) (rest : List (Nat × Nat)) :
    dfsGo g (fuel + 1) u ⟨eu, vu, p⟩ (e :: rest) =
      if e ∈ eu then
        if e.2 ∈ vu then
          dfsGo g fuel u
            (dfsGo g fuel e.2 ⟨eu.erase e, vu.erase e.2, pset p e.2 (Int.ofNat u)⟩
              (adjOf g e.2)) rest
        else dfsGo g fuel u ⟨eu.erase e, vu, p⟩ rest
      else dfsGo g fuel u ⟨eu, vu, p⟩ rest := rfl

theorem dfsScan_cons (g : TravGraph) (fuel : Nat) (st : DfsState) (vd : Nat) (vs : List Nat) :
    dfsScan g fuel st (vd :: vs) =
      if vd ∈ st.vertices_unexplored then
        dfsScan g fuel (dfsGo g fuel vd
          { st with vertices_unexplored := st.vertices_unexplored.erase vd } (adjOf g vd)) vs
      else dfsScan g fuel st vs := rfl

theorem dfsGo_spec {g : TravGraph} :
    ∀ (fuel : Nat) (u : Nat) (st : DfsState) (adj : List (Nat × Nat)),
      CoreInv g st.vertices_unexplored st.edges_unexplored st.p →
      u ∈ g.verts → u ∉ st.vertices_unexplored →
      (∀ e ∈ adj, e ∈ g.edges ∧ e.1 = u) →
      adj.length + dfsWeight g st.vertices_unexplored ≤ fuel →
      CoreInv g (dfsGo g fuel u st adj).vertices_unexplored
          (dfsGo g fuel u st adj).edges_unexplored (dfsGo g fuel u st adj).p ∧
      (dfsGo g fuel u st adj).vertices_unexplored ⊆ st.vertices_unexplored ∧
      (∀ e ∈ adj, e.2 ∉ (dfsGo g fuel u st adj).vertices_unexplored) ∧
      (∀ x ∈ st.vertices_unexplored, x ∉ (dfsGo g fuel u st adj).vertices_unexplored →
        ∀ w, (x, w) ∈ g.edges → w ∉ (dfsGo g fuel u st adj).vertices_unexplored) := by
  intro fuel
  induction fuel with
  | zero =>
      intro u st adj hInv hu_mem hu hadj hfuel
      have hadj0 : adj = [] := List.length_eq_zero.mp (by omega)
      subst hadj0
      rw [dfsGo_zero]
      exact ⟨hInv, Finset.Subset.refl _, by simp, fun x hx hx' => absurd hx hx'⟩
  | succ fuel ih =>
      intro u st adj hInv hu_mem hu hadj hfuel
      cases adj with
      | nil =>
          rw [dfsGo_nil]
          exact ⟨hInv, Finset.Subset.refl _, by simp, fun x hx hx' => absurd hx hx'⟩
      | cons e rest =>
          obtain ⟨eu, vu, p⟩ := st
          have he := hadj e (by simp)
          have hrest : ∀ e' ∈ rest, e' ∈ g.edges ∧ e'.1 = u := fun e' h => hadj e' (by simp [h])
          simp only [List.length_cons] at hfuel
          rw [dfsGo_cons]
          by_cases h1 : e ∈ eu
          · by_cases h2 : e.2 ∈ vu
            · rw [if_pos h1, if_pos h2]
              have hcoreA : CoreInv g (vu.erase e.2) (eu.erase e)
                  (pset p e.2 (Int.ofNat u)) :=
                core_discovery hInv hu_mem hu he.1 he.2 h2
              have ht_mem : e.2 ∈ g.verts := hInv.vu_sub _ h2
              have hsum : dfsWeight g (vu.erase e.2) + (1 + (adjOf g e.2).length)
                  = dfsWeight g vu := Finset.sum_erase_add vu _ h2
              have hfuelA : (adjOf g e.2).length + dfsWeight g (vu.erase e.2) ≤ fuel := by
                omega
              obtain ⟨hI1, hmono1, htgt1, hnew1⟩ := ih e.2
                ⟨eu.erase e, vu.erase e.2, pset p e.2 (Int.ofNat u)⟩ (adjOf g e.2)
                hcoreA ht_mem (Finset.not_mem_erase _ _) (fun _ h => mem_adjOf.mp h) hfuelA
              set st1 := dfsGo g fuel e.2
                ⟨eu.erase e, vu.erase e.2, pset p e.2 (Int.ofNat u)⟩ (adjOf g e.2) with hst1
              have hu1 : u ∉ st1.vertices_unexplored :=
                fun hc => hu (Finset.mem_of_mem_erase (hmono1 hc))
              have hW1 : dfsWeight g st1.vertices_unexplored
                  ≤ dfsWeight g (vu.erase e.2) :=
                Finset.sum_le_sum_of_subset hmono1
              have hfuel1 : rest.length + dfsWeight g st1.vertices_unexplored ≤ fuel := by
                omega
              obtain ⟨hI2, hmono2, htgt2, hnew2⟩ := ih u st1 rest hI1 hu_mem hu1 hrest hfuel1
              refine ⟨hI2, ?_, ?_, ?_⟩
              · intro x hx
                exact Finset.mem_of_mem_erase (hmono1 (hmono2 hx))
              · intro e' he'
                rcases List.mem_cons.mp he' with he' | he'
                · subst he'
                  exact fun hc => Finset.not_mem_erase e'.2 vu (hmono1 (hmono2 hc))
                · exact htgt2 e' he'
              · intro x hx hx' w hw
                by_cases hxe : x = e.2
                · rw [hxe] at hw
                  exact fun hc => htgt1 (e.2, w) (mem_adjOf.mpr ⟨hw, rfl⟩) (hmono2 hc)
                · have hxA : x ∈ vu.erase e.2 := Finset.mem_erase.mpr ⟨hxe, hx⟩
                  by_cases hx1 : x ∈ st1.vertices_unexplored
                  · exact hnew2 x hx1 hx' w hw
                  · exact fun hc => hnew1 x hxA hx1 w hw (hmono2 hc)
            · rw [if_pos h1, if_neg h2]
              have hcoreB : CoreInv g vu (eu.erase e) p := core_cross hInv he.1 h2
              have hfuelB : rest.length + dfsWeight g vu ≤ fuel := by omega
              obtain ⟨hI2, hmono2, htgt2, hnew2⟩ :=
                ih u ⟨eu.erase e, vu, p⟩ rest hcoreB hu_mem hu hrest hfuelB
              refine ⟨hI2, hmono2, ?_, hnew2⟩
              intro e' he'
              rcases List.mem_cons.mp he' with he' | he'
              · subst he'
                exact fun hc => h2 (hmono2 hc)
              · exact htgt2 e' he'
          · rw [if_neg h1]
            have hfuelB : rest.length + dfsWeight g vu ≤ fuel := by omega
            obtain ⟨hI2, hmono2, htgt2, hnew2⟩ :=
              ih u ⟨eu, vu, p⟩ rest hInv hu_mem hu hrest hfuelB
            refine ⟨hI2, hmono2, ?_, hnew2⟩
            intro e' he'
            rcases List.mem_cons.mp he' with he' | he'
            · subst he'
              exact fun hc => hInv.erased_target e' he.1 h1 (hmono2 hc)
            · exact htgt2 e' he'

theorem dfsScan_spec {g : TravGraph}
    (hcl : ∀ e ∈ g.edges, e.1 ∈ g.verts ∧ e.2 ∈ g.verts) (hsym : TravGraph.Sym g) :
    ∀ (vs : List Nat) (st : DfsState), (∀ v ∈ vs, v ∈ g.verts) →
      CoreInv g st.vertices_unexplored st.edges_unexplored st.p →
      closedE g st.vertices_unexplored →
      CoreInv g (dfsScan g (dfsFuel g) st vs).vertices_unexplored
          (dfsScan g (dfsFuel g) st vs).edges_unexplored (dfsScan g (dfsFuel g) st vs).p ∧
      closedE g (dfsScan g (dfsFuel g) st vs).vertices_unexplored ∧
      (dfsScan g (dfsFuel g) st vs).vertices_unexplored ⊆ st.vertices_unexplored ∧
      (∀ v ∈ vs, v ∉ (dfsScan g (dfsFuel g) st vs).vertices_unexplored) := by
  intro vs
  induction vs with
  | nil =>
      intro st _ hcore hcE
      exact ⟨hcore, hcE, Finset.Subset.refl _, by simp⟩
  | cons vd vs ih =>
      intro st hvs hcore hcE
      have hvd_mem : vd ∈ g.verts := hvs vd (by simp)
      rw [dfsScan_cons]
      by_cases hvd : vd ∈ st.vertices_unexplored
      · rw [if_pos hvd]
        have hcoreP : CoreInv g (st.vertices_unexplored.erase vd) st.edges_unexplored st.p :=
          core_root_push hcl hsym hcore hcE hvd_mem hvd
        have hsubF : st.vertices_unexplored ⊆ g.verts.toFinset :=
          fun x hx => List.mem_toFinset.mpr (hcore.vu_sub x hx)
        have hWle : dfsWeight g (st.vertices_unexplored.erase vd)
            ≤ dfsWeight g g.verts.toFinset :=
          Finset.sum_le_sum_of_subset (fun x hx => hsubF (Finset.mem_of_mem_erase hx))
        have hlen := adjOf_length_le g vd
        have hfuelP : (adjOf g vd).length
            + dfsWeight g (st.vertices_unexplored.erase vd) ≤ dfsFuel g := by
          show _ ≤ g.edges.length + dfsWeight g g.verts.toFinset
          omega
        obtain ⟨hI1, hmono1, htgt1, hnew1⟩ := dfsGo_spec (dfsFuel g) vd
          { st with vertices_unexplored := st.vertices_unexplored.erase vd } (adjOf g vd)
          hcoreP hvd_mem (Finset.not_mem_erase _ _) (fun _ h => mem_adjOf.mp h) hfuelP
        set stG := dfsGo g (dfsFuel g) vd
          { st with vertices_unexplored := st.vertices_unexplored.erase vd }
          (adjOf g vd) with hstG
        have hcEG : closedE g stG.vertices_unexplored := by
          intro x w hxm hx hw
          by_cases hxv : x = vd
          · subst hxv
            exact htgt1 (x, w) (mem_adjOf.mpr ⟨hw, rfl⟩)
          · by_cases hxold : x ∈ st.vertices_unexplored
            · exact hnew1 x (Finset.mem_erase.mpr ⟨hxv, hxold⟩) hx w hw
            · exact fun hc => hcE x w hxm hxold hw (Finset.mem_of_mem_erase (hmono1 hc))
        obtain ⟨hI, hcE', hmono', hcov'⟩ :=
          ih stG (fun v hv => hvs v (by simp [hv])) hI1 hcEG
        refine ⟨hI, hcE', ?_, ?_⟩
        · intro x hx
          exact Finset.mem_of_mem_erase (hmono1 (hmono' hx))
        · intro v hv
          rcases List.mem_cons.mp hv with hv | hv
          · subst hv
            exact fun hc => Finset.not_mem_erase v st.vertices_unexplored (hmono1 (hmono' hc))
          · exact hcov' v hv
      · rw [if_neg hvd]
        obtain ⟨hI, hcE', hmono', hcov'⟩ :=
          ih st (fun v hv => hvs v (by simp [hv])) hcore hcE
        refine ⟨hI, hcE', hmono', ?_⟩
        intro v hv
        rcases List.mem_cons.mp hv with hv | hv
        · subst hv
          exact fun hc => hvd (hmono' hc)
        · exact hcov' v hv

theorem dfs_parent_correct {g : TravGraph} (hnd : g.verts.Nodup)
    (hcl : ∀ e ∈ g.edges, e.1 ∈ g.verts ∧ e.2 ∈ g.verts) (hsym : TravGraph.Sym g) :
    (∀ x, (plookup x (depth_first_search g)).isSome = true ↔ x ∈ g.verts) ∧
    (∀ v ∈ g.verts, ∃! r,
      (r ∈ g.verts ∧ plookup r (depth_first_search g) = some (-1)) ∧ Reach g r v) := by
  obtain ⟨hcoreF, hcEF, hmonoF, hcovF⟩ :=
    dfsScan_spec hcl hsym g.verts (dfsStart g) (fun v hv => hv) (start_core hnd)
      (start_closedE g)
  constructor
  · intro x
    rw [plookup_isSome_iff]
    show x ∈ keysOf (dfsScan g (dfsFuel g) (dfsStart g) g.verts).p ↔ x ∈ g.verts
    rw [hcoreF.keys_eq]
  · intro v hv
    have hvnot := hcovF v hv
    obtain ⟨r, hr1, hr2, hr3, hr4⟩ := hcoreF.explored_root v hv hvnot
    refine ⟨r, ⟨⟨hr1, hr3⟩, hr4⟩, ?_⟩
    rintro y ⟨⟨hy1, hy2⟩, hy3⟩
    exact hcoreF.roots_unique y r hy1 hr1 (hcovF y hy1) hr2 hy2 hr3
      (hy3.trans (reach_symm hsym hr4))

theorem dfs_empty {g : TravGraph} (h : g.verts = []) : depth_first_search g = [] := by
  simp [depth_first_search, dfsStart, initP, h, dfsScan]

/-! ## Key-set preservation without the symmetry hypothesis

The parent map's key set equals the vertex list for every graph with
distinct vertex descriptors: discoveries only overwrite keys of unexplored
vertices, which are keys already.  None of this needs the edge set to be
symmetric or even closed. -/

theorem keys_bfsEdgeStep {g : TravGraph} (vd : Nat) (st : BfsState) (e : Nat × Nat)
    (hsub : ∀ v ∈ st.vertices_unexplored, v ∈ g.verts)
    (hkeys : keysOf st.p = g.verts) :
    (∀ v ∈ (bfsEdgeStep vd st e).vertices_unexplored, v ∈ g.verts) ∧
    keysOf (bfsEdgeStep vd st e).p = g.verts := by
  by_cases h1 : e ∈ st.edges_unexplored
  · by_cases h2 : e.2 ∈ st.vertices_unexplored
    · have hstep : bfsEdgeStep vd st e =
        { q := st.q ++ [e.2],
          edges_unexplored := st.edges_unexplored.erase e,
          vertices_unexplored := st.vertices_unexplored.erase e.2,
          p := pset st.p e.2 (Int.ofNat vd) } := by
        simp [bfsEdgeStep, h1, h2]
      rw [hstep]
      refine ⟨fun v hv => hsub v (Finset.mem_of_mem_erase hv), ?_⟩
      rw [keysOf_pset_of_mem _ (by rw [hkeys]; exact hsub _ h2), hkeys]
    · have hstep : bfsEdgeStep vd st e = st := by simp [bfsEdgeStep, h1, h2]
      rw [hstep]
      exact ⟨hsub, hkeys⟩
  · have hstep : bfsEdgeStep vd st e = st := by simp [bfsEdgeStep, h1]
    rw [hstep]
    exact ⟨hsub, hkeys⟩

theorem keys_bfsProcess {g : TravGraph} (vd : Nat) :
    ∀ (adj : List (Nat × Nat)) (st : BfsState),
      (∀ v ∈ st.vertices_unexplored, v ∈ g.verts) → keysOf st.p = g.verts →
      (∀ v ∈ (bfsProcess vd st adj).vertices_unexplored, v ∈ g.verts) ∧
      keysOf (bfsProcess vd st adj).p = g.verts := by
  intro adj
  induction adj with
  | nil =>
      intro st hsub hkeys
      exact ⟨hsub, hkeys⟩
  | cons e adj ih =>
      intro st hsub hkeys
      obtain ⟨h1, h2⟩ := keys_bfsEdgeStep vd st e hsub hkeys
      exact ih (bfsEdgeStep vd st e) h1 h2

theorem keys_bfsLoop {g : TravGraph} :
    ∀ (fuel : Nat) (st : BfsState),
      (∀ v ∈ st.vertices_unexplored, v ∈ g.verts) → keysOf st.p = g.verts →
      (∀ v ∈ (bfsLoop g fuel st).vertices_unexplored, v ∈ g.verts) ∧
      keysOf (bfsLoop g fuel st).p = g.verts := by
  intro fuel
  induction fuel with
  | zero =>
      intro st hsub hkeys
      exact ⟨hsub, hkeys⟩
  | succ fuel ih =>
      intro st hsub hkeys
      obtain ⟨q0, eu, vu, p⟩ := st
      cases q0 with
      | nil =>
          rw [bfsLoop_nilq]
          exact ⟨hsub, hkeys⟩
      | cons vd rest =>
          rw [bfsLoop_consq]
          obtain ⟨h1, h2⟩ := keys_bfsProcess vd (adjOf g vd) ⟨rest, eu, vu, p⟩ hsub hkeys
          exact ih _ h1 h2

theorem keys_bfsScan {g : TravGraph} (fuel : Nat) :
    ∀ (vs : List Nat) (st : BfsState),
      (∀ v ∈ st.vertices_unexplored, v ∈ g.verts) → keysOf st.p = g.verts →
      (∀ v ∈ (bfsScan g fuel st vs).vertices_unexplored, v ∈ g.verts) ∧
      keysOf (bfsScan g fuel st vs).p = g.verts := by
  intro vs
  induction vs with
  | nil =>
      intro st hsub hkeys
      exact ⟨hsub, hkeys⟩
  | cons vd vs ih =>
      intro st hsub hkeys
      rw [bfsScan_cons]
      by_cases hvd : vd ∈ st.vertices_unexplored
      · rw [if_pos hvd]
        have hsub' : ∀ v ∈ st.vertices_unexplored.erase vd, v ∈ g.verts :=
          fun v hv => hsub v (Finset.mem_of_mem_erase hv)
        obtain ⟨h1, h2⟩ := keys_bfsLoop fuel
          { st with q := [vd], vertices_unexplored := st.vertices_unexplored.erase vd }
          hsub' hkeys
        exact ih _ h1 h2
      · rw [if_neg hvd]
        exact ih st hsub hkeys

theorem bfs_keys {g : TravGraph} (hnd : g.verts.Nodup) :
    ∀ x, (plookup x (breadth_first_search g)).isSome = true ↔ x ∈ g.verts := by
  have hsub : ∀ v ∈ (bfsStart g).vertices_unexplored, v ∈ g.verts :=
    fun v hv => List.mem_toFinset.mp hv
  have hkeys : keysOf (bfsStart g).p = g.verts := by
    show keysOf (initP g) = g.verts
    rw [initP_eq hnd, keysOf_map_sentinel]
  obtain ⟨_, h2⟩ := keys_bfsScan (bfsFuel g) g.verts (bfsStart g) hsub hkeys
  intro x
  rw [plookup_isSome_iff]
  show x ∈ keysOf (bfsScan g (bfsFuel g) (bfsStart g) g.verts).p ↔ x ∈ g.verts
  rw [h2]

theorem keys_dfsGo {g : TravGraph} :
    ∀ (fuel u : Nat) (st : DfsState) (adj : List (Nat × Nat)),
      (∀ v ∈ st.vertices_unexplored, v ∈ g.verts) → keysOf st.p = g.verts →
      (∀ v ∈ (dfsGo g fuel u st adj).vertices_unexplored, v ∈ g.verts) ∧
      keysOf (dfsGo g fuel u st adj).p = g.verts := by
  intro fuel
  induction fuel with
  | zero =>
      intro u st adj hsub hkeys
      rw [dfsGo_zero]
      exact ⟨hsub, hkeys⟩
  | succ fuel ih =>
      intro u st adj hsub hkeys
      cases adj with
      | nil =>
          rw [dfsGo_nil]
          exact ⟨hsub, hkeys⟩
      | cons e rest =>
          obtain ⟨eu, vu, p⟩ := st
          rw [dfsGo_cons]
          by_cases h1 : e ∈ eu
          · by_cases h2 : e.2 ∈ vu
            · rw [if_pos h1, if_pos h2]
              have hsubA : ∀ v ∈ vu.erase e.2, v ∈ g.verts :=
                fun v hv => hsub v (Finset.mem_of_mem_erase hv)
              have hkeysA : keysOf (pset p e.2 (Int.ofNat u)) = g.verts := by
                rw [keysOf_pset_of_mem _ (by rw [hkeys]; exact hsub _ h2), hkeys]
              obtain ⟨h1', h2'⟩ := ih e.2
                ⟨eu.erase e, vu.erase e.2, pset p e.2 (Int.ofNat u)⟩ (adjOf g e.2)
                hsubA hkeysA
              exact ih u
                (dfsGo g fuel e.2 ⟨eu.erase e, vu.erase e.2, pset p e.2 (Int.ofNat u)⟩
                  (adjOf g e.2)) rest h1' h2'
            · rw [if_pos h1, if_neg h2]
              exact ih u ⟨eu.erase e, vu, p⟩ rest hsub hkeys
          · rw [if_neg h1]
            exact ih u ⟨eu, vu, p⟩ rest hsub hkeys

theorem keys_dfsScan {g : TravGraph} (fuel : Nat) :
    ∀ (vs : List Nat) (st : DfsState),
      (∀ v ∈ st.vertices_unexplored, v ∈ g.verts) → keysOf st.p = g.verts →
      (∀ v ∈ (dfsScan g fuel st vs).vertices_unexplored, v ∈ g.verts) ∧
      keysOf (dfsScan g fuel st vs).p = g.verts := by
  intro vs
  induction vs with
  | nil =>
      intro st hsub hkeys
      exact ⟨hsub, hkeys⟩
  | cons vd vs ih =>
      intro st hsub hkeys
      rw [dfsScan_cons]
      by_cases hvd : vd ∈ st.vertices_unexplored
      · rw [if_pos hvd]
        have hsub' : ∀ v ∈ st.vertices_unexplored.erase vd, v ∈ g.verts :=
          fun v hv => hsub v (Finset.mem_of_mem_erase hv)
        obtain ⟨h1, h2⟩ := keys_dfsGo fuel vd
          { st with vertices_unexplored := st.vertices_unexplored.erase vd }
          (adjOf g vd) hsub' hkeys
        exact ih _ h1 h2
      · rw [if_neg hvd]
        exact ih st hsub hkeys

theorem dfs_keys {g : TravGraph} (hnd : g.verts.Nodup) :
    ∀ x, (plookup x (depth_first_search g)).isSome = true ↔ x ∈ g.verts := by
  have hsub : ∀ v ∈ (dfsStart g).vertices_unexplored, v ∈ g.verts :=
    fun v hv => List.mem_toFinset.mp hv
  have hkeys : keysOf (dfsStart g).p = g.verts := by
    show keysOf (initP g) = g.verts
    rw [initP_eq hnd, keysOf_map_sentinel]
  obtain ⟨_, h2⟩ := keys_dfsScan (dfsFuel g) g.verts (dfsStart g) hsub hkeys
  intro x
  rw [plookup_isSome_iff]
  show x ∈ keysOf (dfsScan g (dfsFuel g) (dfsStart g) g.verts).p ↔ x ∈ g.verts
  rw [h2]

/-! ## Claim theorems for the parent-map contract -/

/-- C5 (amended): for every graph with the container invariants (distinct
vertex descriptors, every edge endpoint a live vertex) each of
`breadth_first_search` and `depth_first_search` produces a parent map keyed
by exactly the graph's vertex descriptors (and no others), and on the empty
graph the map is empty — no symmetry needed.  When the edge set is
additionally symmetric — the undirected representation the spec mandates —
every connected component contains exactly one sentinel(-1)-valued vertex
(its root), so a graph with K connected components yields exactly K
sentinel-rooted entries.  (The original claim asserted the K-components
correspondence for every graph; it fails for non-symmetric directed edge
sets, see the counterexample.) -/
theorem C5_parent_map_amended (g : TravGraph) (hnd : g.verts.Nodup)
    (hcl : ∀ e ∈ g.edges, e.1 ∈ g.verts ∧ e.2 ∈ g.verts) :
    (∀ x, (plookup x (breadth_first_search g)).isSome = true ↔ x ∈ g.verts) ∧
    (∀ x, (plookup x (depth_first_search g)).isSome = true ↔ x ∈ g.verts) ∧
    (g.verts = [] → breadth_first_search g = [] ∧ depth_first_search g = []) ∧
    ((∀ e ∈ g.edges, (e.2, e.1) ∈ g.edges) →
      (∀ v ∈ g.verts, ∃! r,
        (r ∈ g.verts ∧ plookup r (breadth_first_search g) = some (-1)) ∧ Reach g r v) ∧
      (∀ v ∈ g.verts, ∃! r,
        (r ∈ g.verts ∧ plookup r (depth_first_search g) = some (-1)) ∧ Reach g r v)) :=
  ⟨bfs_keys hnd, dfs_keys hnd, fun h => ⟨bfs_empty h, dfs_empty h⟩,
   fun hsym => ⟨(bfs_parent_correct hnd hcl hsym).2, (dfs_parent_correct hnd hcl hsym).2⟩⟩

/-- Witness for C5 on the concrete symmetric two-component graph, exercising
both the unconditional keyed-by-every-vertex clause and the symmetric
component-bijection clause. -/
theorem C5_parent_map_witness :
    gEx4.verts.Nodup ∧ (∀ e ∈ gEx4.edges, (e.2, e.1) ∈ gEx4.edges) ∧
    (∀ x, (plookup x (breadth_first_search gEx4)).isSome = true ↔ x ∈ gEx4.verts) ∧
    (∀ v ∈ gEx4.verts, ∃! r,
      (r ∈ gEx4.verts ∧ plookup r (breadth_first_search gEx4) = some (-1)) ∧
        Reach gEx4 r v) :=
  ⟨by decide, by decide,
   (C5_parent_map_amended gEx4 (by decide) (by decide)).1,
   ((C5_parent_map_amended gEx4 (by decide) (by decide)).2.2.2 (by decide)).1⟩

/-- C5 counterexample: on the directed graph `gSplit` (edges 0→1 and 2→3
only, scan order [0,3,2,1]) BFS leaves three sentinel entries (0, 3 and 2),
but the graph's underlying undirected components are {0,1} and {2,3} — K = 2.
Vertex 2's component holds the two distinct sentinel roots 2 and 3, so the
claimed "exactly K sentinel-rooted entries on a graph with K connected
components, for every graph" is false. -/
theorem C5_parent_map_cex :
    breadth_first_search gSplit = [(0, -1), (3, -1), (2, -1), (1, 0)] ∧
    ¬(∀ v ∈ gSplit.verts, ∃! r,
        (r ∈ gSplit.verts ∧ plookup r (breadth_first_search gSplit) = some (-1)) ∧
        ReachU gSplit r v) := by
  refine ⟨rfl, ?_⟩
  intro h
  obtain ⟨r, _hr, hu⟩ := h 2 (by decide)
  have h2 : 2 = r := hu 2 ⟨⟨by decide, by decide⟩, Relation.ReflTransGen.refl⟩
  have h3 : 3 = r :=
    hu 3 ⟨⟨by decide, by decide⟩,
      Relation.ReflTransGen.single (show uedgeRel gSplit 3 2 from Or.inr (by decide))⟩
  omega
